import Mathlib

/-!
Verification of the tree/sidebar generator (`generate_tree.py`).

The script walks a documentation repository, renders an ASCII tree into the
README between two marker comments, and produces a docsify sidebar.  We give a
shallow embedding: Python strings become `List Char`, the filesystem becomes an
inductive tree `FSTree`, and the fallible file operations of `update_readme` /
`create_sidebar` act on an explicit `World` state with failure flags standing
for the exceptions the script catches.  Unicode-sensitive primitives
(`str.lower`, `str.upper`, `\d`) are modelled at ASCII precision, which is
exact on every character class the script's own conventions use.
-/

namespace TreeGen

/-- Shorthand: a Lean string literal as the `List Char` our model computes on. -/
def lc (s : String) : List Char := s.toList

/-- Lexicographic (code-point) order on strings, Python's `str` comparison. -/
def listLe : List Char → List Char → Bool
  | [], _ => true
  | _ :: _, [] => false
  | a :: as, b :: bs => if a < b then true else if b < a then false else listLe as bs

/-- `Path.name`: the final path component (text after the last `/`). -/
def pathName (p : List Char) : List Char :=
  p.foldl (fun acc c => if c = '/' then [] else acc ++ [c]) []

/-- Python's `pat in s` substring containment test. -/
def hasSub (pat : List Char) : List Char → Bool
  | [] => pat == []
  | c :: s => ((c :: s).take pat.length == pat) || hasSub pat s

/-- `pat` occurs in `s` starting at index `i`. -/
def occAt (pat s : List Char) (i : Nat) : Prop :=
  (s.drop i).take pat.length = pat

instance (pat s : List Char) (i : Nat) : Decidable (occAt pat s i) :=
  instDecidableEqList ((s.drop i).take pat.length) pat

/-- `pat` occurs nowhere in `s`. -/
def NoOcc (pat s : List Char) : Prop := ∀ i, ¬ occAt pat s i

/-- Python's `str.find`: index of the first occurrence, `none` for `-1`. -/
def firstIdx (pat : List Char) : List Char → Option Nat
  | [] => if pat == [] then some 0 else none
  | c :: s =>
    if (c :: s).take pat.length == pat then some 0
    else (firstIdx pat s).map (· + 1)

/-- `"\n".join(lines)`. -/
def joinNl : List (List Char) → List Char
  | [] => []
  | [l] => l
  | l :: l' :: ls => l ++ '\n' :: joinNl (l' :: ls)

/-! ### PathFilter: `TreeGenerator.__init__` / `should_ignore` -/

/-- `self.ignore_patterns` (`generate_tree.py`, lines 17-21). -/
def ignorePatterns : List (List Char) :=
  [lc ".git", lc ".github", lc "node_modules", lc "__pycache__",
   lc "tree.bak", lc ".nojekyll", lc "generate_tree.py",
   lc "index.html", lc "_sidebar.md", lc ".gitignore"]

/-- `should_ignore` (lines 23-30): the name rule is
`name.startswith('.') and name not in ['.nojekyll']`, OR'd with exact denylist
membership and with substring containment over the full path string. -/
def should_ignore (p : List Char) : Bool :=
  let name := pathName p
  (name.take 1 == ['.'] && !(name == lc ".nojekyll"))
  || ignorePatterns.contains name
  || ignorePatterns.any (fun pat => hasSub pat p)

/-! ### The filesystem model -/

/-- A filesystem entry: regular file or directory with children listed in the
OS iteration (`iterdir`) order. -/
inductive FSTree where
  | file (name : List Char) : FSTree
  | dir (name : List Char) (children : List FSTree) : FSTree

mutual

def fsDecEq : (a b : FSTree) → Decidable (a = b)
  | .file n, .file m =>
    if h : n = m then .isTrue (by rw [h]) else .isFalse (by simp [h])
  | .file _, .dir _ _ => .isFalse (by simp)
  | .dir _ _, .file _ => .isFalse (by simp)
  | .dir n cl, .dir m dl =>
    if h : n = m then
      match fsDecEqL cl dl with
      | .isTrue h2 => .isTrue (by rw [h, h2])
      | .isFalse h2 => .isFalse (by simp [h2])
    else .isFalse (by simp [h])

def fsDecEqL : (a b : List FSTree) → Decidable (a = b)
  | [], [] => .isTrue rfl
  | [], _ :: _ => .isFalse (by simp)
  | _ :: _, [] => .isFalse (by simp)
  | a :: as, b :: bs =>
    match fsDecEq a b with
    | .isTrue h =>
      match fsDecEqL as bs with
      | .isTrue h2 => .isTrue (by rw [h, h2])
      | .isFalse h2 => .isFalse (by simp [h2])
    | .isFalse h => .isFalse (by simp [h])

end

instance : DecidableEq FSTree := fsDecEq

mutual

/-- Number of entries of the tree; used as the renderer fuel, it strictly
dominates the tree depth. -/
def fsSize : FSTree → Nat
  | .file _ => 1
  | .dir _ cl => 1 + fsSizeL cl

def fsSizeL : List FSTree → Nat
  | [] => 0
  | t :: ts => fsSize t + fsSizeL ts

end

def fsName : FSTree → List Char
  | .file n => n
  | .dir n _ => n

/-- `Path.is_file()` for entries of the modelled tree. -/
def isFileB : FSTree → Bool
  | .file _ => true
  | .dir _ _ => false

def isDirB : FSTree → Bool
  | .file _ => false
  | .dir _ _ => true

/-- `str(parent / name)`. -/
def childPath (parent nm : List Char) : List Char := parent ++ '/' :: nm

/-! ### NameParser: `extract_problem_info` -/

/-- Index of the last occurrence of `c` in `l`, if any. -/
def rlastIdx (c : Char) (l : List Char) : Option Nat :=
  (l.foldl (fun (st : Nat × Option Nat) ch =>
    (st.1 + 1, if ch = c then some st.1 else st.2)) (0, none)).2

/-- `os.path.splitext(p)[0]` (POSIX): split at the last dot of the final path
component unless every character before it in that component is a dot. -/
def splitextRoot (p : List Char) : List Char :=
  match rlastIdx '.' p with
  | none => p
  | some dotIdx =>
    let sepBound := match rlastIdx '/' p with
      | none => 0
      | some s => s + 1
    if dotIdx < sepBound then p
    else if ((p.drop sepBound).take (dotIdx - sepBound)).all (· = '.') then p
    else p.take dotIdx

def isUpperAscii (c : Char) : Bool := decide ('A' ≤ c) && decide (c ≤ 'Z')

def isSepChar (c : Char) : Bool := c == '_' || c == '-'

/-- The `(?:题)?[_\-]` part of the pattern: optionally consume `题`, then a
separator, returning the rest.  `题` is not a separator, so the regex
alternative that skips the optional group can only succeed when the head is
itself a separator, and the two alternatives never both apply. -/
def afterLetter : List Char → Option (List Char)
  | [] => none
  | c :: l2 =>
    if c = '题' then
      match l2 with
      | [] => none
      | s :: r => if isSepChar s then some r else none
    else if isSepChar c then some l2 else none

/-- The `(.+)$` part with Python semantics: `.` never matches a newline and
`$` also matches just before one final trailing newline, which is then not
part of the captured group. -/
def dollarBody (l : List Char) : Option (List Char) :=
  let core := if l.getLast? = some '\n' then l.dropLast else l
  if core.isEmpty || core.contains '\n' then none else some core

/-- `re.match(r'^([A-Z])(?:题)?[_\-](.+)$', stem)`: the captured letter and
title group, or `none`; the leading `[A-Z]`, the optional-marker/separator
part, and the `(.+)$` tail are matched in sequence. -/
def matchProblem (stem : List Char) : Option (Char × List Char) :=
  match stem with
  | [] => none
  | c :: rest =>
    if isUpperAscii c then
      (afterLetter rest).bind (fun r => (dollarBody r).map (fun body => (c, body)))
    else none

/-- `.replace('_', ' ')`. -/
def repUS (l : List Char) : List Char := l.map (fun c => if c = '_' then ' ' else c)

/-- `.replace('-', ' ')`. -/
def repHy (l : List Char) : List Char := l.map (fun c => if c = '-' then ' ' else c)

/-- `extract_problem_info` (lines 54-69). -/
def extract_problem_info (filename : List Char) : List Char × List Char :=
  let stem := splitextRoot filename
  match matchProblem stem with
  | some (c, title) => ([c], repHy (repUS title))
  | none =>
    if stem.take 2 == lc "0_" then (lc "INFO", repUS (stem.drop 2))
    else (lc "FILE", repUS stem)

/-! ### TreeRenderer: `generate_readme_tree` / `add_directory` -/

/-- `str.lower` at ASCII precision. -/
def lowerName (t : FSTree) : List Char := (fsName t).map Char.toLower

/-- `str.upper` at ASCII precision. -/
def upperName (t : FSTree) : List Char := (fsName t).map Char.toUpper

/-- Strict order on `Bool` seen as Python's `False < True`. -/
def boolLtB (a b : Bool) : Bool := !a && b

/-- Python's comparison of a `(bool, str)` key tuple: lexicographic, the
Boolean first. -/
def lexKeyLe (kb : FSTree → Bool) (ks : FSTree → List Char) (a b : FSTree) : Bool :=
  boolLtB (kb a) (kb b) || (kb a == kb b && listLe (ks a) (ks b))

/-- The sort key comparison of line 87: tuples
`(x.is_file(), x.name.lower())` compared lexicographically. -/
def lowerKeyLe : FSTree → FSTree → Bool := lexKeyLe isFileB lowerName

/-- Line 87's ordering as a relation. -/
def childRel (a b : FSTree) : Prop := lowerKeyLe a b = true

instance childRel.instDec : DecidableRel childRel :=
  fun a b => (instDecidableEqBool (lowerKeyLe a b) true : Decidable (childRel a b))

/-- `sorted(dir_path.iterdir(), key=lambda x: (x.is_file(), x.name.lower()))`;
a stable sort, so `insertionSort` with the same total preorder computes the
same list. -/
def sortChildren (cl : List FSTree) : List FSTree :=
  List.insertionSort childRel cl

/-- One loop iteration of `add_directory` (lines 89-103): skip ignored items,
render the entry line with the connector chosen from `is_last`, and recurse
(through `re`) into subdirectories with the extended indentation. -/
def renderChildF (re : FSTree → List Char → List Char → List (List Char) × Nat × Nat)
    (item : FSTree) (parentPath pfx : List Char) (isLast : Bool) :
    List (List Char) × Nat × Nat :=
  let ipath := childPath parentPath (fsName item)
  if should_ignore ipath then ([], 0, 0)
  else
    let conn := if isLast then lc "└── " else lc "├── "
    let npfx := if isLast then lc "    " else lc "│   "
    match item with
    | .file nm => ([pfx ++ conn ++ nm], 0, 1)
    | .dir nm cl =>
      let sub := re (.dir nm cl) ipath (pfx ++ npfx)
      ((pfx ++ conn ++ nm) :: sub.1, sub.2.1 + 1, sub.2.2)

/-- The `for i, item in enumerate(items)` loop: `is_last` is `i == len(items)-1`
over the sorted but *unfiltered* list, i.e. exactly the final list element. -/
def renderItemsF (re : FSTree → List Char → List Char → List (List Char) × Nat × Nat) :
    List FSTree → List Char → List Char → List (List Char) × Nat × Nat
  | [], _, _ => ([], 0, 0)
  | [item], path, pfx => renderChildF re item path pfx true
  | item :: it2 :: rest, path, pfx =>
    let r1 := renderChildF re item path pfx false
    let r2 := renderItemsF re (it2 :: rest) path pfx
    (r1.1 ++ r2.1, r1.2.1 + r2.2.1, r1.2.2 + r2.2.2)

/-- `add_directory` (lines 80-106), with a structural fuel so that the model
stays kernel-computable; `generate_readme_tree` runs it at fuel `fsSize root`,
which dominates the tree depth, so the `0` branch is never reached (see
`addDirF_fuel_irrelevant`).  The early return on an ignored directory and the
recursion through the sorted children mirror the source; a file argument
yields nothing (the source never recurses into files). -/
def addDirF (fuel : Nat) : FSTree → List Char → List Char → List (List Char) × Nat × Nat :=
  Nat.rec (motive := fun _ => FSTree → List Char → List Char → List (List Char) × Nat × Nat)
    (fun _ _ _ => ([], 0, 0))
    (fun _ ih t path pfx =>
      if should_ignore path then ([], 0, 0)
      else
        match t with
        | .file _ => ([], 0, 0)
        | .dir _ cl => renderItemsF ih (sortChildren cl) path pfx)
    fuel

/-- `generate_readme_tree` (lines 71-113): fenced block, root line `"."`, the
recursive listing, a blank line and the `"<d> directories, <f> files"`
summary. -/
def generate_readme_tree (root : FSTree) (rootPath : List Char) : List Char :=
  let r := addDirF (fsSize root) root rootPath []
  joinNl ([lc "```", lc "."] ++ r.1 ++
    [[], (Nat.repr r.2.1).toList ++ lc " directories, " ++ (Nat.repr r.2.2).toList ++ lc " files",
     lc "```"])

/-! ### SidebarBuilder: `generate_docsify_sidebar`

The model keeps, for every collected year directory, the pair of the entry and
its full path string, since `should_ignore` inspects the full path.  The
pure filesystem model has no unreadable directories, so the
`except PermissionError` fallback lines of the source cannot trigger and are
not modelled. -/

/-- `re.match(r'^\d{4}$', name)` as a Boolean: four (ASCII) digits, where `$`
also accepts one final trailing newline. -/
def matchYearFull (nm : List Char) : Bool :=
  decide (4 ≤ nm.length) && (nm.take 4).all Char.isDigit
  && (nm.drop 4 == [] || nm.drop 4 == ['\n'])

/-- `re.match(r'^\d{4}', name)` as a Boolean: starts with four digits. -/
def matchYearStart (nm : List Char) : Bool :=
  decide (4 ≤ nm.length) && (nm.take 4).all Char.isDigit

/-- `name.startswith('0_')`. -/
def starts0 (nm : List Char) : Bool := nm.take 2 == lc "0_"

/-- `name.startswith('.')`. -/
def startsDot (nm : List Char) : Bool := nm.take 1 == ['.']

/-- The two fixed header lines plus the blank line (lines 117-119). -/
def headerLines : List (List Char) :=
  [lc "* [**首页**](/)", lc "* [**使用说明**](#使用说明)", []]

/-- Year directories collected from the root (lines 122-127), in `iterdir`
order, paired with their path strings. -/
def yearPairs (root : FSTree) (rootPath : List Char) : List (FSTree × List Char) :=
  match root with
  | .file _ => []
  | .dir _ cl =>
    (cl.filter (fun it =>
      isDirB it && !should_ignore (childPath rootPath (fsName it)) && matchYearFull (fsName it))).map
      (fun it => (it, childPath rootPath (fsName it)))

/-- The fallback scan of the `真题` folder (lines 130-137). -/
def zhentiPairs (root : FSTree) (rootPath : List Char) : List (FSTree × List Char) :=
  match root with
  | .file _ => []
  | .dir _ cl =>
    match cl.find? (fun it => fsName it == lc "真题") with
    | some (.dir _ zl) =>
      let zPath := childPath rootPath (lc "真题")
      (zl.filter (fun it =>
        isDirB it && !should_ignore (childPath zPath (fsName it)) && matchYearStart (fsName it))).map
        (fun it => (it, childPath zPath (fsName it)))
    | _ => []

/-- Lines 122-137: root-level year directories, else the `真题` fallback. -/
def sidebarYears (root : FSTree) (rootPath : List Char) : List (FSTree × List Char) :=
  let yd := yearPairs root rootPath
  if yd.isEmpty then zhentiPairs root rootPath else yd

/-- The ordering of `year_dirs.sort(key=lambda x: x.name, reverse=True)`
(line 140): descending by name. -/
def yearRel (a b : FSTree × List Char) : Prop := listLe (fsName b.1) (fsName a.1) = true

instance yearRel.instDec : DecidableRel yearRel :=
  fun a b => (instDecidableEqBool (listLe (fsName b.1) (fsName a.1)) true : Decidable (yearRel a b))

/-- `year_dirs.sort(key=lambda x: x.name, reverse=True)` (line 140): a stable
descending sort by name. -/
def sortedYears (root : FSTree) (rootPath : List Char) : List (FSTree × List Char) :=
  List.insertionSort yearRel (sidebarYears root rootPath)

/-- The non-ignored plain files of one year directory (lines 149-152), in
`iterdir` order. -/
def yearFiles (yd : FSTree × List Char) : List FSTree :=
  match yd.1 with
  | .file _ => []
  | .dir _ cl => cl.filter (fun f => isFileB f && !should_ignore (childPath yd.2 (fsName f)))

/-- The sort key comparison of lines 155-158: tuples
`(not x.name.startswith('0_'), x.name.upper())`. -/
def fileKeyLe : FSTree → FSTree → Bool :=
  lexKeyLe (fun t => !starts0 (fsName t)) upperName

/-- Lines 155-158's ordering as a relation. -/
def fileRel (a b : FSTree) : Prop := fileKeyLe a b = true

instance fileRel.instDec : DecidableRel fileRel :=
  fun a b => (instDecidableEqBool (fileKeyLe a b) true : Decidable (fileRel a b))

def sortedYearFiles (yd : FSTree × List Char) : List FSTree :=
  List.insertionSort fileRel (yearFiles yd)

/-- Lines 160-176: one sidebar entry per file, skipping dotfiles, with the
`INFO` format for `0_` names and the letter-badge format otherwise. -/
def entryLines (year : List Char) (f : FSTree) : List (List Char) :=
  let filename := fsName f
  if startsDot filename then []
  else
    let lt := extract_problem_info filename
    let link := '#' :: (year ++ '/' :: filename)
    if starts0 filename then
      [lc "  * [" ++ lt.2 ++ lc "](" ++ link ++ lc ")"]
    else
      [lc "  * **" ++ lt.1 ++ lc "题** - [" ++ lt.2 ++ lc "](" ++ link ++ lc ")"]

/-- Lines 143-176: the heading of one year followed by its entries. -/
def yearSection (yd : FSTree × List Char) : List (List Char) :=
  (lc "* **" ++ fsName yd.1 ++ lc "年**") ::
    (sortedYearFiles yd).flatMap (entryLines (fsName yd.1))

/-- `re.search(r'(\d{4})', filename)`: the leftmost run of four digits. -/
def findYear : List Char → Option (List Char)
  | [] => none
  | c :: rest =>
    if decide (4 ≤ (c :: rest).length) && ((c :: rest).take 4).all Char.isDigit
    then some ((c :: rest).take 4)
    else findYear rest

/-- The ordering of `files.sort(key=lambda x: x.name)` (line 190). -/
def nameRel (a b : FSTree) : Prop := listLe (fsName a) (fsName b) = true

instance nameRel.instDec : DecidableRel nameRel :=
  fun a b => (instDecidableEqBool (listLe (fsName a) (fsName b)) true : Decidable (nameRel a b))

/-- Lines 182-205: the `综合测评` section, if that directory exists. -/
def zhongceSection (root : FSTree) (rootPath : List Char) : List (List Char) :=
  match root with
  | .file _ => []
  | .dir _ cl =>
    match cl.find? (fun it => fsName it == lc "综合测评") with
    | some (.dir _ zl) =>
      let zPath := childPath rootPath (lc "综合测评")
      let files := zl.filter (fun f => isFileB f && !should_ignore (childPath zPath (fsName f)))
      let sorted := List.insertionSort nameRel files
      [] :: lc "* **综合测评**" ::
        sorted.map (fun f =>
          let filename := fsName f
          let title := match findYear filename with
            | some y => y ++ lc "年综合测评"
            | none => splitextRoot filename
          lc "  * [" ++ title ++ lc "](#综合测评/" ++ filename ++ lc ")")
    | _ => []

/-- `generate_docsify_sidebar` (lines 115-207): headers, the year sections in
descending year order, the `综合测评` section, joined by newlines with one
final newline. -/
def generate_docsify_sidebar (root : FSTree) (rootPath : List Char) : List Char :=
  joinNl (headerLines ++ (sortedYears root rootPath).flatMap yearSection
    ++ zhongceSection root rootPath) ++ ['\n']

/-! ### DocumentUpdater: `update_readme` / `create_sidebar`

File I/O is embedded as a `World` state.  The three Boolean flags stand for
the exceptional outcomes the script handles: a missing `README.md`, an
exception while reading it, and an exception while writing (`update_readme`
catches every exception of its body; `create_sidebar` catches exceptions of
its write).  A caught exception leaves the model state unchanged and the
operation reports failure, mirroring lines 209-264. -/

def startMarker : List Char := lc "<!-- readme-tree start -->"

def endMarker : List Char := lc "<!-- readme-tree end -->"

/-- The content transformation of `update_readme` (lines 226-239): if both
markers are found, splice the tree (wrapped in newlines) between the text up
to the end of the first start marker and the text from the first end marker
on; otherwise append a fresh marked block. -/
def updateContent (tree content : List Char) : List Char :=
  match firstIdx startMarker content, firstIdx endMarker content with
  | some si, some ei =>
    content.take (si + startMarker.length) ++ '\n' :: (tree ++ '\n' :: content.drop ei)
  | _, _ =>
    content ++ '\n' :: '\n' ::
      (startMarker ++ '\n' :: (tree ++ '\n' :: (endMarker ++ ['\n'])))

/-- The file-system state visible to the two write operations. -/
structure World where
  readmeExists : Bool
  readme : List Char
  readOk : Bool
  writeOk : Bool
  sidebar : List Char
  sidebarWriteOk : Bool

/-- `update_readme` (lines 209-250): missing README reports failure; a read
or write exception is caught and reports failure; otherwise the README
becomes `updateContent` of the freshly rendered tree. -/
def update_readme (root : FSTree) (rootPath : List Char) (w : World) : Bool × World :=
  if !w.readmeExists then (false, w)
  else if !w.readOk then (false, w)
  else
    let newContent := updateContent (generate_readme_tree root rootPath) w.readme
    if !w.writeOk then (false, w)
    else (true, { w with readme := newContent })

/-- `create_sidebar` (lines 252-264): a write exception is caught and reports
failure; otherwise `_sidebar.md` is overwritten with the generated sidebar. -/
def create_sidebar (root : FSTree) (rootPath : List Char) (w : World) : Bool × World :=
  let content := generate_docsify_sidebar root rootPath
  if !w.sidebarWriteOk then (false, w)
  else (true, { w with sidebar := content })

/-! ## Order lemmas -/

theorem listLe_total : ∀ (a b : List Char), listLe a b = true ∨ listLe b a = true
  | [], _ => Or.inl rfl
  | _ :: _, [] => Or.inr rfl
  | x :: xs, y :: ys => by
    simp only [listLe]
    rcases lt_trichotomy x y with h | h | h
    · exact Or.inl (by simp [h])
    · subst h
      simp only [lt_irrefl, if_false]
      exact listLe_total xs ys
    · exact Or.inr (by simp [h])

theorem listLe_trans : ∀ (a b c : List Char),
    listLe a b = true → listLe b c = true → listLe a c = true
  | [], _, _, _, _ => rfl
  | _ :: _, [], _, h1, _ => by simp [listLe] at h1
  | _ :: _, _ :: _, [], _, h2 => by simp [listLe] at h2
  | x :: xs, y :: ys, z :: zs, h1, h2 => by
    simp only [listLe] at h1 h2 ⊢
    rcases lt_trichotomy x y with hxy | hxy | hxy
    · rcases lt_trichotomy y z with hyz | hyz | hyz
      · simp [lt_trans hxy hyz]
      · subst hyz; simp [hxy]
      · rw [if_neg (lt_asymm hyz), if_pos hyz] at h2
        exact absurd h2 (by simp)
    · subst hxy
      rcases lt_trichotomy x z with hyz | hyz | hyz
      · simp [hyz]
      · subst hyz
        simp only [lt_irrefl, if_false] at h1 h2 ⊢
        exact listLe_trans xs ys zs h1 h2
      · rw [if_neg (lt_asymm hyz), if_pos hyz] at h2
        exact absurd h2 (by simp)
    · rw [if_neg (lt_asymm hxy), if_pos hxy] at h1
      exact absurd h1 (by simp)

theorem lexKeyLe_total (kb : FSTree → Bool) (ks : FSTree → List Char) (a b : FSTree) :
    lexKeyLe kb ks a b = true ∨ lexKeyLe kb ks b a = true := by
  unfold lexKeyLe boolLtB
  cases hab : kb a <;> cases hbb : kb b <;> simp
  · exact listLe_total (ks a) (ks b)
  · exact listLe_total (ks a) (ks b)

theorem lexKeyLe_trans (kb : FSTree → Bool) (ks : FSTree → List Char) (a b c : FSTree)
    (h1 : lexKeyLe kb ks a b = true) (h2 : lexKeyLe kb ks b c = true) :
    lexKeyLe kb ks a c = true := by
  unfold lexKeyLe boolLtB at h1 h2 ⊢
  cases hab : kb a <;> cases hbb : kb b <;> cases hcb : kb c <;>
    simp [hab, hbb, hcb] at h1 h2 ⊢
  · exact listLe_trans _ _ _ h1 h2
  · exact listLe_trans _ _ _ h1 h2

instance childRel.instTotal : IsTotal FSTree childRel :=
  ⟨fun a b => lexKeyLe_total isFileB lowerName a b⟩

instance childRel.instTrans : IsTrans FSTree childRel :=
  ⟨fun a b c => lexKeyLe_trans isFileB lowerName a b c⟩

instance fileRel.instTotal : IsTotal FSTree fileRel :=
  ⟨fun a b => lexKeyLe_total (fun t => !starts0 (fsName t)) upperName a b⟩

instance fileRel.instTrans : IsTrans FSTree fileRel :=
  ⟨fun a b c => lexKeyLe_trans (fun t => !starts0 (fsName t)) upperName a b c⟩

instance yearRel.instTotal : IsTotal (FSTree × List Char) yearRel :=
  ⟨fun a b => listLe_total (fsName b.1) (fsName a.1)⟩

instance yearRel.instTrans : IsTrans (FSTree × List Char) yearRel :=
  ⟨fun _ _ _ h1 h2 => listLe_trans _ _ _ h2 h1⟩

instance nameRel.instTotal : IsTotal FSTree nameRel :=
  ⟨fun a b => listLe_total (fsName a) (fsName b)⟩

instance nameRel.instTrans : IsTrans FSTree nameRel :=
  ⟨fun _ _ _ h1 h2 => listLe_trans _ _ _ h1 h2⟩

/-! ## Occurrence and find lemmas -/

theorem occAt_le {pat s : List Char} {i : Nat} (h : occAt pat s i) :
    pat.length ≤ s.length - i := by
  have h2 := congrArg List.length h
  rw [List.length_take, List.length_drop] at h2
  exact min_eq_left_iff.mp h2

theorem occAt_bound {pat s : List Char} {i : Nat} (hne : pat ≠ []) (h : occAt pat s i) :
    i + pat.length ≤ s.length := by
  have h1 := occAt_le h
  have h2 : 0 < pat.length := List.length_pos.mpr hne
  omega

theorem occAt_mono_left {pat X Y : List Char} {i : Nat} (h : occAt pat (X ++ Y) i)
    (hle : i + pat.length ≤ X.length) : occAt pat X i := by
  unfold occAt at h ⊢
  rw [List.drop_append_eq_append_drop, List.take_append_eq_append_take] at h
  have hlen : pat.length ≤ (X.drop i).length := by rw [List.length_drop]; omega
  rw [Nat.sub_eq_zero_of_le hlen, List.take_zero, List.append_nil] at h
  exact h

theorem occAt_mono_append {pat X Y : List Char} {i : Nat} (h : occAt pat X i) :
    occAt pat (X ++ Y) i := by
  have hle := occAt_le h
  unfold occAt at h ⊢
  have hlen : pat.length ≤ (X.drop i).length := by rw [List.length_drop]; omega
  rw [List.drop_append_eq_append_drop, List.take_append_eq_append_take,
      Nat.sub_eq_zero_of_le hlen, List.take_zero, List.append_nil]
  exact h

theorem occAt_right {pat X Y : List Char} {i : Nat} (h : occAt pat (X ++ Y) i)
    (hge : X.length ≤ i) : occAt pat Y (i - X.length) := by
  unfold occAt at h ⊢
  rw [List.drop_append_eq_append_drop, List.drop_eq_nil_of_le (by omega),
      List.nil_append] at h
  exact h

theorem occAt_shift {pat X Y : List Char} {j : Nat} (h : occAt pat Y j) :
    occAt pat (X ++ Y) (X.length + j) := by
  unfold occAt at h ⊢
  rw [List.drop_append_eq_append_drop, List.drop_eq_nil_of_le (by omega), List.nil_append,
      Nat.add_sub_cancel_left]
  exact h

theorem head?_take {k : Nat} {l : List Char} (hk : 0 < k) : (l.take k).head? = l.head? := by
  cases l <;> cases k <;> simp_all

theorem head?_mem {l : List Char} {c : Char} (h : l.head? = some c) : c ∈ l := by
  cases l <;> simp_all

/-- A position inside an occurrence window carries the corresponding pattern
character. -/
theorem occAt_head {pat s : List Char} {i b : Nat} (h : occAt pat s i)
    (h1 : i ≤ b) (h2 : b < i + pat.length) :
    (s.drop b).head? = (pat.drop (b - i)).head? := by
  unfold occAt at h
  have hc : pat.drop (b - i) = (s.drop b).take (pat.length - (b - i)) := by
    conv_lhs => rw [← h]
    rw [List.drop_take, List.drop_drop]
    rw [show i + (b - i) = b by omega]
  rw [hc, head?_take (show 0 < pat.length - (b - i) by omega)]

theorem firstIdx_some {pat : List Char} : ∀ {s : List Char} {n : Nat},
    occAt pat s n → (∀ m < n, ¬ occAt pat s m) → firstIdx pat s = some n
  | [], n, hocc, hmin => by
    have hp : pat = [] := by
      unfold occAt at hocc
      simpa using hocc.symm
    have hn : n = 0 := by
      by_contra hne
      exact hmin 0 (Nat.pos_of_ne_zero hne) (by unfold occAt; simp [hp])
    subst hp
    subst hn
    rfl
  | c :: s, 0, hocc, _ => by
    unfold occAt at hocc
    unfold firstIdx
    rw [if_pos (by simpa [beq_iff_eq] using hocc)]
  | c :: s, n + 1, hocc, hmin => by
    have ih : firstIdx pat s = some n :=
      firstIdx_some (by unfold occAt at hocc ⊢; simpa using hocc)
        (fun m hm hocc' =>
          hmin (m + 1) (by omega) (by unfold occAt at hocc' ⊢; simpa using hocc'))
    unfold firstIdx
    rw [if_neg (fun hbeq =>
      hmin 0 (Nat.succ_pos n) (by unfold occAt; simpa [beq_iff_eq] using hbeq)), ih]
    rfl

theorem firstIdx_none {pat : List Char} : ∀ {s : List Char},
    (∀ i, ¬ occAt pat s i) → firstIdx pat s = none
  | [], h => by
    unfold firstIdx
    rw [if_neg (fun hbeq =>
      h 0 (by unfold occAt; simp [beq_iff_eq.mp hbeq]))]
  | c :: s, h => by
    unfold firstIdx
    rw [if_neg (fun hbeq =>
        h 0 (by unfold occAt; simpa [beq_iff_eq] using hbeq)),
      firstIdx_none (fun i hocc =>
        h (i + 1) (by unfold occAt at hocc ⊢; simpa using hocc))]
    rfl

theorem noOcc_of_bounded {pat s : List Char} (hne : pat ≠ [])
    (h : ∀ i < s.length, ¬ occAt pat s i) : NoOcc pat s := by
  intro i hocc
  by_cases hi : i < s.length
  · exact h i hi hocc
  · have h1 := occAt_le hocc
    have h2 : pat.length = 0 := by omega
    exact hne (List.length_eq_zero.mp h2)

theorem hasSub_iff {pat : List Char} : ∀ {s : List Char},
    hasSub pat s = true ↔ ∃ i, occAt pat s i
  | [] => by
    unfold hasSub
    constructor
    · intro h
      exact ⟨0, by unfold occAt; simp [beq_iff_eq.mp h]⟩
    · rintro ⟨i, h⟩
      unfold occAt at h
      simp at h
      simp [h.symm]
  | c :: s => by
    unfold hasSub
    rw [Bool.or_eq_true, hasSub_iff (s := s)]
    constructor
    · rintro (h | ⟨i, h⟩)
      · exact ⟨0, by unfold occAt; simpa [beq_iff_eq] using h⟩
      · exact ⟨i + 1, by unfold occAt at h ⊢; simpa using h⟩
    · rintro ⟨i, h⟩
      cases i with
      | zero => exact Or.inl (by unfold occAt at h; simpa [beq_iff_eq] using h)
      | succ j => exact Or.inr ⟨j, by unfold occAt at h ⊢; simpa using h⟩

/-! ## Path-name lemmas -/

theorem foldl_pathName_no_slash : ∀ (nm : List Char), '/' ∉ nm → ∀ acc : List Char,
    nm.foldl (fun acc c => if c = '/' then [] else acc ++ [c]) acc = acc ++ nm
  | [], _, acc => by simp
  | c :: t, h, acc => by
    have hc : c ≠ '/' := fun hh => h (hh ▸ List.mem_cons_self c t)
    have ht : '/' ∉ t := fun hh => h (List.mem_cons_of_mem c hh)
    simp only [List.foldl_cons, if_neg hc]
    rw [foldl_pathName_no_slash t ht]
    simp

/-- The name of `parent / nm` is `nm` whenever `nm` has no separator, as is
the case for every `iterdir` entry name. -/
theorem pathName_childPath (parent nm : List Char) (h : '/' ∉ nm) :
    pathName (childPath parent nm) = nm := by
  unfold pathName childPath
  rw [show parent ++ '/' :: nm = (parent ++ ['/']) ++ nm by simp, List.foldl_append,
      foldl_pathName_no_slash nm h]
  simp [List.foldl_append]

theorem startsDotB_iff {l : List Char} : (l.take 1 == ['.']) = true ↔ l.head? = some '.' := by
  cases l <;> simp [List.take]

/-! ## C7 / C10: the ignore rules -/

/-- C7: `should_ignore(path)` returns true exactly when the entry name starts
with `'.'` and is not `.nojekyll`, or the name equals a denylist entry, or the
full path contains a denylist entry as a substring; in particular a mere
substring hit on the full path makes the entry ignored, so it contributes no
line to the rendered tree and never enters a sidebar year-file list. -/
theorem C7_should_ignore_exact (p : List Char) :
    (should_ignore p = true ↔
      ((pathName p).head? = some '.' ∧ pathName p ≠ lc ".nojekyll")
      ∨ pathName p ∈ ignorePatterns
      ∨ (∃ pat ∈ ignorePatterns, ∃ i, occAt pat p i))
    ∧ (∀ pat ∈ ignorePatterns, ∀ i, occAt pat p i → should_ignore p = true)
    ∧ (∀ re item pfx b, should_ignore (childPath p (fsName item)) = true →
        renderChildF re item p pfx b = ([], 0, 0))
    ∧ (∀ yd : FSTree × List Char, ∀ f ∈ yearFiles yd,
        should_ignore (childPath yd.2 (fsName f)) = false) := by
  refine ⟨?_, ?_, ?_, ?_⟩
  · unfold should_ignore
    simp only [Bool.or_eq_true, Bool.and_eq_true, Bool.not_eq_true', beq_eq_false_iff_ne,
      ne_eq, List.any_eq_true, startsDotB_iff]
    constructor
    · rintro ((h1 | h2) | h3)
      · exact Or.inl h1
      · exact Or.inr (Or.inl (by simpa using h2))
      · obtain ⟨pat, hpat, hsub⟩ := h3
        exact Or.inr (Or.inr ⟨pat, hpat, hasSub_iff.mp hsub⟩)
    · rintro (h1 | h2 | ⟨pat, hpat, hocc⟩)
      · exact Or.inl (Or.inl h1)
      · exact Or.inl (Or.inr (by simpa using h2))
      · exact Or.inr ⟨pat, hpat, hasSub_iff.mpr hocc⟩
  · intro pat hpat i hocc
    unfold should_ignore
    simp only [Bool.or_eq_true, List.any_eq_true]
    exact Or.inr ⟨pat, hpat, hasSub_iff.mpr ⟨i, hocc⟩⟩
  · intro re item pfx b h
    unfold renderChildF
    rw [if_pos h]
  · intro yd f hf
    obtain ⟨y, ypath⟩ := yd
    cases y with
    | file nm => exact absurd hf (by simp [yearFiles])
    | dir nm cl =>
      rw [show yearFiles (FSTree.dir nm cl, ypath)
          = cl.filter (fun f => isFileB f && !should_ignore (childPath ypath (fsName f)))
          from rfl] at hf
      have h2 := (List.mem_filter.mp hf).2
      simp only [Bool.and_eq_true, Bool.not_eq_true'] at h2
      exact h2.2

/-- Witness for C7 at a file whose name merely contains `index.html`. -/
theorem C7_should_ignore_exact_witness :
    should_ignore (lc "/repo/myindex.html.bak") = true ∧
    renderChildF (addDirF 0) (.file (lc "myindex.html.bak")) (lc "/repo") [] true
      = ([], 0, 0) :=
  ⟨(C7_should_ignore_exact (lc "/repo/myindex.html.bak")).2.1 (lc "index.html")
      (by decide) 8 (by decide),
   (C7_should_ignore_exact (lc "/repo")).2.2.1 (addDirF 0)
      (.file (lc "myindex.html.bak")) [] true (by decide)⟩

/-- The ignore rule of lines 26-30 with the `.nojekyll` exception of line 27
removed; stated from the spec's wording only to compare outcomes. -/
def should_ignore_noexc (p : List Char) : Bool :=
  let name := pathName p
  (name.take 1 == ['.'])
  || ignorePatterns.contains name
  || ignorePatterns.any (fun pat => hasSub pat p)

/-- C10: every entry named `.nojekyll` is ignored anyway (the name sits in the
denylist), the exception never changes `should_ignore`'s outcome, and an entry
named `.nojekyll` contributes no tree line and never enters a sidebar
year-file list. -/
theorem C10_nojekyll_exception_vacuous :
    (∀ p : List Char, pathName p = lc ".nojekyll" → should_ignore p = true)
    ∧ (∀ p : List Char, should_ignore p = should_ignore_noexc p)
    ∧ (∀ re item parent pfx b, fsName item = lc ".nojekyll" →
        renderChildF re item parent pfx b = ([], 0, 0))
    ∧ (∀ yd : FSTree × List Char, ∀ f ∈ yearFiles yd, fsName f ≠ lc ".nojekyll") := by
  have hnames : ∀ p : List Char, pathName p = lc ".nojekyll" → should_ignore p = true := by
    intro p h
    unfold should_ignore
    rw [h]
    simp [ignorePatterns]
  have hchild : ∀ (parent : List Char), should_ignore (childPath parent (lc ".nojekyll")) = true := by
    intro parent
    exact hnames _ (pathName_childPath parent (lc ".nojekyll") (by decide))
  refine ⟨hnames, ?_, ?_, ?_⟩
  · intro p
    unfold should_ignore should_ignore_noexc
    by_cases h : pathName p = lc ".nojekyll"
    · rw [h]
      simp [ignorePatterns]
    · simp only [beq_eq_false_iff_ne, ne_eq]
      rw [show (pathName p == lc ".nojekyll") = false by simpa using h]
      simp
  · intro re item parent pfx b h
    unfold renderChildF
    rw [h, if_pos (hchild parent)]
  · intro yd f hf h
    obtain ⟨y, ypath⟩ := yd
    cases y with
    | file nm => exact absurd hf (by simp [yearFiles])
    | dir nm cl =>
      rw [show yearFiles (FSTree.dir nm cl, ypath)
          = cl.filter (fun f => isFileB f && !should_ignore (childPath ypath (fsName f)))
          from rfl] at hf
      have h2 := (List.mem_filter.mp hf).2
      simp only [Bool.and_eq_true, Bool.not_eq_true'] at h2
      have h3 := h2.2
      rw [h, hchild ypath] at h3
      exact absurd h3 (by simp)

/-- Witness for C10 at a concrete `.nojekyll` entry. -/
theorem C10_nojekyll_exception_vacuous_witness :
    should_ignore (lc "/repo/.nojekyll") = true
    ∧ renderChildF (addDirF 0) (.file (lc ".nojekyll")) (lc "/repo") [] true = ([], 0, 0) :=
  ⟨C10_nojekyll_exception_vacuous.1 (lc "/repo/.nojekyll") (by decide),
   C10_nojekyll_exception_vacuous.2.2.1 (addDirF 0) (.file (lc ".nojekyll"))
     (lc "/repo") [] true (by decide)⟩

/-! ## C3 / C4: the tree renderer -/

theorem childRel_cases {a b : FSTree} (h : childRel a b) :
    (isFileB a = false ∧ isFileB b = true)
    ∨ (isFileB a = isFileB b ∧ listLe (lowerName a) (lowerName b) = true) := by
  unfold childRel lowerKeyLe lexKeyLe boolLtB at h
  cases hfa : isFileB a <;> cases hfb : isFileB b <;> rw [hfa, hfb] at h <;> simp_all

/-- C3: at each directory level `add_directory` iterates over `sortChildren`
of the children — sorted by the key `(is_file, name.lower())` — a permutation
of the children in which every subdirectory precedes every file and, within
each of the two groups, names are in case-insensitive alphabetical order. -/
theorem C3_listing_sorted (fuel : Nat) (nm path pfx : List Char) (cl : List FSTree) :
    addDirF (fuel + 1) (.dir nm cl) path pfx =
      (if should_ignore path then ([], 0, 0)
       else renderItemsF (addDirF fuel) (sortChildren cl) path pfx)
    ∧ (sortChildren cl).Perm cl
    ∧ (sortChildren cl).Pairwise (fun a b =>
        (isFileB a = false ∧ isFileB b = true)
        ∨ (isFileB a = isFileB b ∧ listLe (lowerName a) (lowerName b) = true)) :=
  ⟨rfl, List.perm_insertionSort childRel cl,
   (List.sorted_insertionSort childRel cl).imp childRel_cases⟩

theorem renderItems_lines_append
    (re : FSTree → List Char → List Char → List (List Char) × Nat × Nat) :
    ∀ (l : List FSTree) (x : FSTree) (path pfx : List Char),
    (renderItemsF re (l ++ [x]) path pfx).1
      = (l.map (fun it => (renderChildF re it path pfx false).1)).flatten
        ++ (renderChildF re x path pfx true).1
  | [], x, path, pfx => by simp [renderItemsF]
  | [a], x, path, pfx => by simp [renderItemsF]
  | a :: b :: t, x, path, pfx => by
    have ih := renderItems_lines_append re (b :: t) x path pfx
    show ((renderChildF re a path pfx false).1
        ++ (renderItemsF re (b :: (t ++ [x])) path pfx).1) = _
    rw [List.cons_append] at ih
    rw [ih]
    simp [List.append_assoc]

/-- C4 counterexample: for a directory whose sorted child list ends with an
ignored entry (`index.html`), the visible child `a.txt` *is* the last visible
child, yet it is rendered with the mid-list connector `├── ` and no line at
all carries the terminal connector, because `is_last` is computed over the
unfiltered listing (line 93). -/
theorem C4_counterexample :
    (addDirF (fsSize (.dir (lc "repo") [.file (lc "a.txt"), .file (lc "index.html")]))
       (.dir (lc "repo") [.file (lc "a.txt"), .file (lc "index.html")]) (lc "/repo") []).1
      = [lc "├── a.txt"]
    ∧ generate_readme_tree (.dir (lc "repo") [.file (lc "a.txt"), .file (lc "index.html")])
        (lc "/repo")
      = lc "```\n.\n├── a.txt\n\n0 directories, 1 files\n```" := by
  exact ⟨by decide, by decide⟩

/-- C4 (amended): the terminal connector `└── ` (and continuation prefix
`"    "`) goes to the child at the *final position of the sorted, unfiltered
listing*; every other visible child gets `├── ` (and continuation prefix
`"│   "`); ignored children render nothing.  When the final listed child is
itself ignored, no visible child receives the terminal connector. -/
theorem C4_connector_assignment
    (re : FSTree → List Char → List Char → List (List Char) × Nat × Nat)
    (l : List FSTree) (x : FSTree) (path pfx : List Char) :
    ((renderItemsF re (l ++ [x]) path pfx).1
      = (l.map (fun it => (renderChildF re it path pfx false).1)).flatten
        ++ (renderChildF re x path pfx true).1)
    ∧ (∀ item b, should_ignore (childPath path (fsName item)) = true →
        renderChildF re item path pfx b = ([], 0, 0))
    ∧ (∀ nm, should_ignore (childPath path nm) = false →
        (renderChildF re (.file nm) path pfx true).1 = [pfx ++ lc "└── " ++ nm]
        ∧ (renderChildF re (.file nm) path pfx false).1 = [pfx ++ lc "├── " ++ nm])
    ∧ (∀ nm cl, should_ignore (childPath path nm) = false →
        (renderChildF re (.dir nm cl) path pfx true).1
          = (pfx ++ lc "└── " ++ nm)
            :: (re (.dir nm cl) (childPath path nm) (pfx ++ lc "    ")).1
        ∧ (renderChildF re (.dir nm cl) path pfx false).1
          = (pfx ++ lc "├── " ++ nm)
            :: (re (.dir nm cl) (childPath path nm) (pfx ++ lc "│   ")).1) := by
  refine ⟨renderItems_lines_append re l x path pfx, ?_, ?_, ?_⟩
  · intro item b h
    unfold renderChildF
    rw [if_pos h]
  · intro nm h
    constructor <;> (unfold renderChildF; rw [if_neg (by simp [fsName, h])]; rfl)
  · intro nm cl h
    constructor <;> (unfold renderChildF; rw [if_neg (by simp [fsName, h])]; rfl)

/-- Witness for C4's amended statement on a concrete listing. -/
theorem C4_connector_assignment_witness :
    (renderItemsF (addDirF 0) ([.file (lc "a.txt")] ++ [.file (lc "z.txt")])
        (lc "/repo") []).1
      = [lc "├── a.txt", lc "└── z.txt"]
    ∧ (renderChildF (addDirF 0) (.file (lc "a.txt")) (lc "/repo") [] true).1
      = [lc "└── a.txt"] := by
  constructor
  · rw [(C4_connector_assignment (addDirF 0) [.file (lc "a.txt")]
      (.file (lc "z.txt")) (lc "/repo") []).1]
    decide
  · exact ((C4_connector_assignment (addDirF 0) [] (.file (lc "a.txt"))
      (lc "/repo") []).2.2.1 (lc "a.txt") (by decide)).1

/-! ## C5: sidebar ordering -/

theorem fileRel_cases {a b : FSTree} (h : fileRel a b) :
    (starts0 (fsName b) = true → starts0 (fsName a) = true)
    ∧ (starts0 (fsName a) = false → starts0 (fsName b) = false →
        listLe (upperName a) (upperName b) = true) := by
  unfold fileRel fileKeyLe lexKeyLe boolLtB at h
  cases hsa : starts0 (fsName a) <;> cases hsb : starts0 (fsName b) <;> simp_all

/-- C5: the sidebar is the header lines followed by one section per year
directory in `sortedYears` order — descending in the year-directory name — and
inside each year the files are listed in `sortedYearFiles` order: every `0_`
entry precedes every other entry, and entries with equal `0_`-status are in
ascending order of their uppercased names. -/
theorem C5_sidebar_order (root : FSTree) (p : List Char) :
    generate_docsify_sidebar root p
      = joinNl (headerLines ++ (sortedYears root p).flatMap yearSection
          ++ zhongceSection root p) ++ ['\n']
    ∧ (∀ yd, yearSection yd
        = (lc "* **" ++ fsName yd.1 ++ lc "年**")
            :: (sortedYearFiles yd).flatMap (entryLines (fsName yd.1)))
    ∧ (sortedYears root p).Pairwise
        (fun a b => listLe (fsName b.1) (fsName a.1) = true)
    ∧ (∀ yd ∈ sortedYears root p, (sortedYearFiles yd).Pairwise
        (fun a b =>
          (starts0 (fsName b) = true → starts0 (fsName a) = true)
          ∧ (starts0 (fsName a) = false → starts0 (fsName b) = false →
              listLe (upperName a) (upperName b) = true))) := by
  refine ⟨rfl, fun _ => rfl, ?_, ?_⟩
  · exact List.sorted_insertionSort yearRel (sidebarYears root p)
  · intro yd _
    exact (List.sorted_insertionSort fileRel (yearFiles yd)).imp fileRel_cases

/-- Witness for C5 on a concrete two-year tree. -/
theorem C5_sidebar_order_witness :
    (sortedYears
        (.dir (lc "r") [.dir (lc "2021") [.file (lc "A_Old.pdf")],
          .dir (lc "2023") [.file (lc "B_x.pdf"), .file (lc "0_n.txt")]])
        (lc "/r")).Pairwise
      (fun a b => listLe (fsName b.1) (fsName a.1) = true)
    ∧ (sortedYearFiles
        (.dir (lc "2023") [.file (lc "B_x.pdf"), .file (lc "0_n.txt")],
          lc "/r/2023")).Pairwise
        (fun a b =>
          (starts0 (fsName b) = true → starts0 (fsName a) = true)
          ∧ (starts0 (fsName a) = false → starts0 (fsName b) = false →
              listLe (upperName a) (upperName b) = true)) := by
  constructor
  · exact (C5_sidebar_order
      (.dir (lc "r") [.dir (lc "2021") [.file (lc "A_Old.pdf")],
        .dir (lc "2023") [.file (lc "B_x.pdf"), .file (lc "0_n.txt")]])
      (lc "/r")).2.2.1
  · refine (C5_sidebar_order
      (.dir (lc "r") [.dir (lc "2021") [.file (lc "A_Old.pdf")],
        .dir (lc "2023") [.file (lc "B_x.pdf"), .file (lc "0_n.txt")]])
      (lc "/r")).2.2.2
      (.dir (lc "2023") [.file (lc "B_x.pdf"), .file (lc "0_n.txt")], lc "/r/2023") ?_
    rw [show sortedYears
        (.dir (lc "r") [.dir (lc "2021") [.file (lc "A_Old.pdf")],
          .dir (lc "2023") [.file (lc "B_x.pdf"), .file (lc "0_n.txt")]])
        (lc "/r")
      = [(.dir (lc "2023") [.file (lc "B_x.pdf"), .file (lc "0_n.txt")], lc "/r/2023"),
         (.dir (lc "2021") [.file (lc "A_Old.pdf")], lc "/r/2021")] from rfl]
    exact List.mem_cons_self _ _

/-! ## Fuel adequacy of the renderer -/

theorem addDirF_succ (f : Nat) (t : FSTree) (p x : List Char) :
    addDirF (f + 1) t p x
      = if should_ignore p then ([], 0, 0)
        else match t with
          | .file _ => ([], 0, 0)
          | .dir _ cl => renderItemsF (addDirF f) (sortChildren cl) p x := rfl

theorem fsSize_pos (t : FSTree) : 1 ≤ fsSize t := by
  cases t <;> simp [fsSize]

theorem fsSize_le_sizeL : ∀ {cl : List FSTree} {t : FSTree}, t ∈ cl → fsSize t ≤ fsSizeL cl
  | a :: rest, t, h => by
    rw [show fsSizeL (a :: rest) = fsSize a + fsSizeL rest from rfl]
    rcases List.mem_cons.mp h with h | h
    · subst h
      omega
    · have := fsSize_le_sizeL h
      omega

theorem fsSize_lt_dir {nm : List Char} {cl : List FSTree} {t : FSTree} (h : t ∈ cl) :
    fsSize t < fsSize (.dir nm cl) := by
  rw [show fsSize (.dir nm cl) = 1 + fsSizeL cl from rfl]
  have := fsSize_le_sizeL h
  omega

theorem renderChildF_congr {re1 re2 : FSTree → List Char → List Char → List (List Char) × Nat × Nat}
    (item : FSTree) (p x : List Char) (b : Bool)
    (h : ∀ q y, re1 item q y = re2 item q y) :
    renderChildF re1 item p x b = renderChildF re2 item p x b := by
  unfold renderChildF
  cases item with
  | file nm => rfl
  | dir nm cl => simp only [h]

theorem renderItemsF_congr
    {re1 re2 : FSTree → List Char → List Char → List (List Char) × Nat × Nat} :
    ∀ (items : List FSTree) (p x : List Char),
    (∀ it ∈ items, ∀ q y, re1 it q y = re2 it q y) →
    renderItemsF re1 items p x = renderItemsF re2 items p x
  | [], _, _, _ => rfl
  | [item], p, x, h => renderChildF_congr item p x true (h item (by simp))
  | a :: b :: t, p, x, h => by
    have h1 := renderChildF_congr a p x false (h a (by simp) : ∀ q y, re1 a q y = re2 a q y)
    have h2 := renderItemsF_congr (b :: t) p x (fun it hit => h it (by simp [hit]))
    show ((renderChildF re1 a p x false).1 ++ (renderItemsF re1 (b :: t) p x).1,
          (renderChildF re1 a p x false).2.1 + (renderItemsF re1 (b :: t) p x).2.1,
          (renderChildF re1 a p x false).2.2 + (renderItemsF re1 (b :: t) p x).2.2)
        = _
    rw [h1, h2]
    rfl

theorem addDirF_fuel_aux : ∀ (n : Nat) (t : FSTree), fsSize t ≤ n →
    ∀ (f1 f2 : Nat) (p x : List Char), fsSize t ≤ f1 → fsSize t ≤ f2 →
    addDirF f1 t p x = addDirF f2 t p x := by
  intro n
  induction n with
  | zero =>
    intro t ht
    have := fsSize_pos t
    omega
  | succ n ih =>
    intro t ht f1 f2 p x h1 h2
    have hpos := fsSize_pos t
    cases f1 with
    | zero => omega
    | succ g1 =>
      cases f2 with
      | zero => omega
      | succ g2 =>
        rw [addDirF_succ, addDirF_succ]
        cases t with
        | file nm => rfl
        | dir nm cl =>
          by_cases hig : should_ignore p = true
          · rw [if_pos hig, if_pos hig]
          · rw [if_neg hig, if_neg hig]
            apply renderItemsF_congr
            intro it hmem q y
            have hmem2 : it ∈ cl := by
              have := List.perm_insertionSort childRel cl
              exact this.mem_iff.mp hmem
            have hlt : fsSize it < fsSize (.dir nm cl) := fsSize_lt_dir hmem2
            exact ih it (by omega) g1 g2 q y (by omega) (by omega)

/-- `fsSize root` is always enough fuel: the renderer is insensitive to any
further fuel, so the `0` cutoff of `addDirF` never shapes
`generate_readme_tree`'s output. -/
theorem addDirF_fuel_irrelevant (t : FSTree) (f1 f2 : Nat) (p x : List Char)
    (h1 : fsSize t ≤ f1) (h2 : fsSize t ≤ f2) :
    addDirF f1 t p x = addDirF f2 t p x :=
  addDirF_fuel_aux (fsSize t) t (le_refl _) f1 f2 p x h1 h2

/-! ## C2: the name parser -/

theorem isSepChar_iff {s : Char} : isSepChar s = true ↔ s = '_' ∨ s = '-' := by
  unfold isSepChar
  simp

theorem afterLetter_decomp {t : List Char} {s : Char} {r : List Char}
    (ht : t = [] ∨ t = ['题']) (hs : s = '_' ∨ s = '-') :
    afterLetter (t ++ s :: r) = some r := by
  have hsep : isSepChar s = true := isSepChar_iff.mpr hs
  have hsne : s ≠ '题' := by rcases hs with h | h <;> subst h <;> decide
  rcases ht with h | h <;> subst h
  · show afterLetter (s :: r) = some r
    simp [afterLetter, hsne, hsep]
  · show afterLetter ('题' :: s :: r) = some r
    simp [afterLetter, hsep]

theorem afterLetter_some_iff {l r : List Char} :
    afterLetter l = some r ↔
      ∃ t s, (t = [] ∨ t = ['题']) ∧ (s = '_' ∨ s = '-') ∧ l = t ++ s :: r := by
  constructor
  · intro h
    cases l with
    | nil => simp [afterLetter] at h
    | cons c l2 =>
      by_cases hc : c = '题'
      · subst hc
        cases l2 with
        | nil => simp [afterLetter] at h
        | cons s r2 =>
          rw [show afterLetter ('题' :: s :: r2)
              = (if isSepChar s then some r2 else none) from by
                simp [afterLetter]] at h
          by_cases hsep : isSepChar s = true
          · rw [if_pos hsep] at h
            injection h with h2
            subst h2
            exact ⟨['题'], s, Or.inr rfl, isSepChar_iff.mp hsep, rfl⟩
          · rw [if_neg hsep] at h
            exact absurd h (by simp)
      · rw [show afterLetter (c :: l2)
            = (if isSepChar c then some l2 else none) from by
              simp [afterLetter, hc]] at h
        by_cases hsep : isSepChar c = true
        · rw [if_pos hsep] at h
          injection h with h2
          subst h2
          exact ⟨[], c, Or.inl rfl, isSepChar_iff.mp hsep, rfl⟩
        · rw [if_neg hsep] at h
          exact absurd h (by simp)
  · rintro ⟨t, s, ht, hs, heq⟩
    rw [heq]
    exact afterLetter_decomp ht hs

theorem dollarBody_concat_nl (l2 : List Char) :
    dollarBody (l2 ++ ['\n'])
      = if l2.isEmpty || l2.contains '\n' then none else some l2 := by
  unfold dollarBody
  rw [if_pos (List.getLast?_concat l2), List.dropLast_concat]

theorem dollarBody_no_nl {l : List Char} (h : l.getLast? ≠ some '\n') :
    dollarBody l = if l.isEmpty || l.contains '\n' then none else some l := by
  unfold dollarBody
  rw [if_neg h]

theorem dollarBody_some_iff {l body : List Char} :
    dollarBody l = some body ↔
      body ≠ [] ∧ '\n' ∉ body ∧ (l = body ∨ l = body ++ ['\n']) := by
  rcases List.eq_nil_or_concat l with hl | ⟨l2, a, hl⟩
  · subst hl
    rw [dollarBody_no_nl (by simp)]
    constructor
    · intro h
      exact absurd h (by simp)
    · rintro ⟨h1, h2, h3 | h3⟩
      · exact absurd h3.symm h1
      · exact absurd h3 (by simp)
  · rw [List.concat_eq_append] at hl
    subst hl
    by_cases ha : a = '\n'
    · subst ha
      rw [dollarBody_concat_nl]
      by_cases he : (l2.isEmpty || l2.contains '\n') = true
      · rw [if_pos he]
        simp only [Bool.or_eq_true, List.isEmpty_iff] at he
        constructor
        · intro h
          exact absurd h (by simp)
        · rintro ⟨h1, h2, h3 | h3⟩
          · exact absurd (h3 ▸ List.mem_append_right l2 (by simp)) h2
          · have hb : l2 = body := by
              have h4 := congrArg List.dropLast h3
              simpa [List.dropLast_concat] using h4
            rcases he with he | he
            · exact absurd (hb ▸ he) h1
            · exact absurd (hb ▸ (by simpa using he)) h2
      · rw [if_neg he]
        simp only [Bool.or_eq_true, not_or, List.isEmpty_iff] at he
        obtain ⟨he1, he2⟩ := he
        have hni : '\n' ∉ l2 := fun hmem => he2 (by simpa using hmem)
        constructor
        · intro h
          injection h with hb
          subst hb
          exact ⟨he1, hni, Or.inr rfl⟩
        · rintro ⟨h1, h2, h3 | h3⟩
          · exact absurd (h3 ▸ List.mem_append_right l2 (by simp)) h2
          · have hb : l2 = body := by
              have h4 := congrArg List.dropLast h3
              simpa [List.dropLast_concat] using h4
            rw [hb]
    · have hlast : (l2 ++ [a]).getLast? ≠ some '\n' := by
        rw [List.getLast?_concat]
        simpa using ha
      rw [dollarBody_no_nl hlast]
      by_cases he : ((l2 ++ [a]).isEmpty || (l2 ++ [a]).contains '\n') = true
      · rw [if_pos he]
        simp only [Bool.or_eq_true, List.isEmpty_iff] at he
        constructor
        · intro h
          exact absurd h (by simp)
        · rintro ⟨h1, h2, h3 | h3⟩
          · rcases he with he | he
            · exact absurd he (by simp)
            · rw [h3] at he
              exact absurd (by simpa using he) h2
          · have h4 := congrArg List.getLast? h3
            rw [List.getLast?_concat, List.getLast?_concat] at h4
            injection h4 with h5
            exact absurd h5 ha
      · rw [if_neg he]
        simp only [Bool.or_eq_true, not_or, List.isEmpty_iff] at he
        constructor
        · intro h
          injection h with hb
          refine ⟨by rw [← hb]; simp, ?_, Or.inl hb⟩
          intro hmem
          exact he.2 (by rw [hb]; simpa using hmem)
        · rintro ⟨h1, h2, h3 | h3⟩
          · rw [h3]
          · have h4 := congrArg List.getLast? h3
            rw [List.getLast?_concat, List.getLast?_concat] at h4
            injection h4 with h5
            exact absurd h5 ha

theorem dollarBody_decomp {r nl : List Char} (h1 : r ≠ []) (h2 : '\n' ∉ r)
    (hnl : nl = [] ∨ nl = ['\n']) : dollarBody (r ++ nl) = some r := by
  apply dollarBody_some_iff.mpr
  refine ⟨h1, h2, ?_⟩
  rcases hnl with h | h <;> subst h
  · exact Or.inl (by simp)
  · exact Or.inr rfl

theorem matchProblem_some_iff {stem : List Char} {c : Char} {r : List Char} :
    matchProblem stem = some (c, r) ↔
      isUpperAscii c = true ∧ r ≠ [] ∧ '\n' ∉ r ∧
      ∃ t s nl, (t = [] ∨ t = ['题']) ∧ (s = '_' ∨ s = '-') ∧ (nl = [] ∨ nl = ['\n'])
        ∧ stem = c :: (t ++ s :: (r ++ nl)) := by
  cases stem with
  | nil => simp [matchProblem]
  | cons c0 rest =>
    by_cases hu : isUpperAscii c0 = true
    · rw [show matchProblem (c0 :: rest)
          = if isUpperAscii c0 then
              (afterLetter rest).bind (fun r2 => (dollarBody r2).map (fun body => (c0, body)))
            else none from rfl, if_pos hu]
      constructor
      · intro h
        cases hA : afterLetter rest with
        | none =>
          rw [hA] at h
          simp at h
        | some r2 =>
          rw [hA] at h
          have h2 : Option.map (fun body => (c0, body)) (dollarBody r2) = some (c, r) := h
          cases hD : dollarBody r2 with
          | none =>
            rw [hD] at h2
            simp at h2
          | some body =>
            rw [hD] at h2
            have h3 : some ((c0, body) : Char × List Char) = some (c, r) := h2
            injection h3 with h4
            injection h4 with hc hb
            subst hc
            subst hb
            obtain ⟨t, s, ht, hs, hrest⟩ := afterLetter_some_iff.mp hA
            obtain ⟨hb1, hb2, hb3⟩ := dollarBody_some_iff.mp hD
            refine ⟨hu, hb1, hb2, ?_⟩
            rcases hb3 with h3 | h3
            · exact ⟨t, s, [], ht, hs, Or.inl rfl, by rw [hrest, h3]; simp⟩
            · exact ⟨t, s, ['\n'], ht, hs, Or.inr rfl, by rw [hrest, h3]⟩
      · rintro ⟨h1, h2, h3, t, s, nl, ht, hs, hnl, heq⟩
        injection heq with hc hrest
        subst hc
        rw [hrest, afterLetter_decomp ht hs]
        show (dollarBody (r ++ nl)).map (fun body => (c0, body)) = some (c0, r)
        rw [dollarBody_decomp h2 h3 hnl]
        rfl
    · rw [show matchProblem (c0 :: rest)
          = if isUpperAscii c0 then
              (afterLetter rest).bind (fun r2 => (dollarBody r2).map (fun body => (c0, body)))
            else none from rfl, if_neg hu]
      constructor
      · intro h
        simp at h
      · rintro ⟨h1, _, _, t, s, nl, _, _, _, heq⟩
        injection heq with hc _
        exact absurd (show isUpperAscii c0 = true by rw [hc]; exact h1) hu

theorem extract_eq (fn : List Char) :
    extract_problem_info fn
      = match matchProblem (splitextRoot fn) with
        | some (c, title) => ([c], repHy (repUS title))
        | none =>
          if (splitextRoot fn).take 2 == lc "0_"
          then (lc "INFO", repUS ((splitextRoot fn).drop 2))
          else (lc "FILE", repUS (splitextRoot fn)) := rfl

/-- C2 counterexample: for the filename `"A_\n"` the extension-stripped stem
is `'A'` followed by a separator and the non-empty remainder `"\n"`, so the
claim predicts the pair `("A", "\n")`; but `.` in the pattern cannot match the
newline, the regex fails, and the code returns the `FILE` fallback. -/
theorem C2_counterexample :
    splitextRoot ('A' :: '_' :: ['\n'])
      = 'A' :: (([] : List Char) ++ '_' :: ('\n' :: ([] : List Char)))
    ∧ ('\n' :: ([] : List Char)) ≠ []
    ∧ extract_problem_info ('A' :: '_' :: ['\n']) = (lc "FILE", 'A' :: ' ' :: ['\n'])
    ∧ extract_problem_info ('A' :: '_' :: ['\n']) ≠ (['A'], ['\n']) :=
  ⟨by decide, by decide, by decide, by decide⟩

/-- C2 (amended): `extract_problem_info` is total, and on the
extension-stripped stem it applies, in order: if the stem is an ASCII capital,
optionally `题`, a separator `_`/`-`, and a remainder that is non-empty,
newline-free and followed by at most one final newline (which is dropped), the
result is the letter with the remainder's `_`/`-` replaced by spaces;
otherwise a `0_` stem yields `INFO` and anything else yields `FILE`, each with
`_` replaced by spaces. -/
theorem C2_extract_characterization (fn : List Char) :
    (∀ (c : Char) (t : List Char) (s : Char) (r nl : List Char),
      isUpperAscii c = true → (t = [] ∨ t = ['题']) → (s = '_' ∨ s = '-') →
      r ≠ [] → '\n' ∉ r → (nl = [] ∨ nl = ['\n']) →
      splitextRoot fn = c :: (t ++ s :: (r ++ nl)) →
      extract_problem_info fn = ([c], repHy (repUS r)))
    ∧ ((¬ ∃ (c : Char) (t : List Char) (s : Char) (r nl : List Char),
        isUpperAscii c = true ∧ (t = [] ∨ t = ['题']) ∧ (s = '_' ∨ s = '-') ∧
        r ≠ [] ∧ '\n' ∉ r ∧ (nl = [] ∨ nl = ['\n']) ∧
        splitextRoot fn = c :: (t ++ s :: (r ++ nl))) →
      ((splitextRoot fn).take 2 = lc "0_" →
        extract_problem_info fn = (lc "INFO", repUS ((splitextRoot fn).drop 2)))
      ∧ ((splitextRoot fn).take 2 ≠ lc "0_" →
        extract_problem_info fn = (lc "FILE", repUS (splitextRoot fn)))) := by
  constructor
  · intro c t s r nl h1 h2 h3 h4 h5 h6 h7
    have hM : matchProblem (splitextRoot fn) = some (c, r) :=
      matchProblem_some_iff.mpr ⟨h1, h4, h5, t, s, nl, h2, h3, h6, h7⟩
    rw [extract_eq, hM]
  · intro hno
    have hM : matchProblem (splitextRoot fn) = none := by
      cases hM : matchProblem (splitextRoot fn) with
      | none => rfl
      | some pr =>
        obtain ⟨c, r⟩ := pr
        obtain ⟨h1, h4, h5, t, s, nl, h2, h3, h6, h7⟩ := matchProblem_some_iff.mp hM
        exact absurd ⟨c, t, s, r, nl, h1, h2, h3, h4, h5, h6, h7⟩ hno
    constructor
    · intro hz
      rw [extract_eq, hM]
      show (if (splitextRoot fn).take 2 == lc "0_" then _ else _) = _
      rw [if_pos (by simpa [beq_iff_eq] using hz)]
    · intro hz
      rw [extract_eq, hM]
      show (if (splitextRoot fn).take 2 == lc "0_" then _ else _) = _
      rw [if_neg (by simpa [beq_iff_eq] using hz)]

/-- Witness for C2's amended statement: a letter-`题`-separator name. -/
theorem C2_extract_characterization_witness :
    extract_problem_info (lc "A题-My_Problem.pdf") = (lc "A", lc "My Problem") := by
  have h := (C2_extract_characterization (lc "A题-My_Problem.pdf")).1 'A' ['题'] '-'
    (lc "My_Problem") [] (by decide) (by decide) (by decide) (by decide) (by decide)
    (by decide) (by decide)
  rw [h]
  decide

/-! ## C1 / C8 / C9: the document updater -/

theorem occAt_at_start (pat Y : List Char) : occAt pat (pat ++ Y) 0 := by
  unfold occAt
  rw [List.drop_zero]
  exact List.take_left pat Y

theorem occAt_append_at (X pat Y : List Char) : occAt pat (X ++ (pat ++ Y)) X.length := by
  have h := occAt_shift (X := X) (occAt_at_start pat Y)
  simpa using h

theorem updateContent_eq_replace {tree content : List Char} {si ei : Nat}
    (hs : firstIdx startMarker content = some si)
    (he : firstIdx endMarker content = some ei) :
    updateContent tree content
      = content.take (si + startMarker.length)
        ++ '\n' :: (tree ++ '\n' :: content.drop ei) := by
  unfold updateContent
  rw [hs, he]

theorem updateContent_eq_append {tree content : List Char}
    (h : firstIdx startMarker content = none ∨ firstIdx endMarker content = none) :
    updateContent tree content
      = content ++ '\n' :: '\n' ::
          (startMarker ++ '\n' :: (tree ++ '\n' :: (endMarker ++ ['\n']))) := by
  unfold updateContent
  rcases h with h | h
  · cases h2 : firstIdx endMarker content with
    | none => rw [h]
    | some e => rw [h]
  · cases h2 : firstIdx startMarker content with
    | none => rw [h]
    | some s2 => rw [h]

/-- The content transformation when both markers are present, the start one
first: everything strictly between the first occurrences is replaced by the
newline-wrapped tree, while the prefix up to and including the start marker
and the suffix from the end marker on are untouched. -/
theorem updateContent_replace (tree A B C : List Char)
    (hS : ∀ i < A.length,
      ¬ occAt startMarker (A ++ (startMarker ++ (B ++ (endMarker ++ C)))) i)
    (hE : ∀ i < A.length + startMarker.length + B.length,
      ¬ occAt endMarker (A ++ (startMarker ++ (B ++ (endMarker ++ C)))) i) :
    updateContent tree (A ++ (startMarker ++ (B ++ (endMarker ++ C))))
      = A ++ (startMarker ++ ('\n' :: (tree ++ '\n' :: (endMarker ++ C)))) := by
  have hfS : firstIdx startMarker (A ++ (startMarker ++ (B ++ (endMarker ++ C))))
      = some A.length :=
    firstIdx_some (occAt_append_at A startMarker (B ++ (endMarker ++ C))) hS
  have hfE : firstIdx endMarker (A ++ (startMarker ++ (B ++ (endMarker ++ C))))
      = some (A.length + startMarker.length + B.length) := by
    apply firstIdx_some ?_ hE
    rw [Nat.add_assoc]
    have h := occAt_append_at ((A ++ startMarker) ++ B) endMarker C
    simpa [List.append_assoc, List.length_append] using h
  rw [updateContent_eq_replace hfS hfE]
  have htake : (A ++ (startMarker ++ (B ++ (endMarker ++ C)))).take
      (A.length + startMarker.length) = A ++ startMarker := by
    rw [show A ++ (startMarker ++ (B ++ (endMarker ++ C)))
        = (A ++ startMarker) ++ (B ++ (endMarker ++ C)) by simp [List.append_assoc]]
    exact List.take_left' (by simp only [List.length_append])
  have hdrop : (A ++ (startMarker ++ (B ++ (endMarker ++ C)))).drop
      (A.length + startMarker.length + B.length) = endMarker ++ C := by
    rw [show A ++ (startMarker ++ (B ++ (endMarker ++ C)))
        = ((A ++ startMarker) ++ B) ++ (endMarker ++ C) by simp [List.append_assoc]]
    exact List.drop_left' (by simp only [List.length_append])
  rw [htake, hdrop]
  simp [List.append_assoc]

theorem update_readme_success (root : FSTree) (p : List Char) (w : World)
    (hex : w.readmeExists = true) (hr : w.readOk = true) (hw : w.writeOk = true) :
    update_readme root p w
      = (true, { w with readme := updateContent (generate_readme_tree root p) w.readme }) := by
  unfold update_readme
  rw [hex, hr, hw]
  rfl

/-- C1: on a README whose content carries the start marker before the end
marker (first occurrences), a successful `update_readme` run leaves the text
before the start marker and the text from the end marker on byte-identical and
replaces everything strictly between the markers with the freshly rendered
tree surrounded by newlines. -/
theorem C1_update_readme_replaces (root : FSTree) (p : List Char) (w : World)
    (A B C : List Char)
    (hex : w.readmeExists = true) (hr : w.readOk = true) (hw : w.writeOk = true)
    (hc : w.readme = A ++ (startMarker ++ (B ++ (endMarker ++ C))))
    (hS : ∀ i < A.length, ¬ occAt startMarker w.readme i)
    (hE : ∀ i < A.length + startMarker.length + B.length,
      ¬ occAt endMarker w.readme i) :
    update_readme root p w
      = (true, { w with readme :=
          A ++ (startMarker ++ ('\n' :: (generate_readme_tree root p
            ++ '\n' :: (endMarker ++ C)))) }) := by
  have hS2 : ∀ i < A.length,
      ¬ occAt startMarker (A ++ (startMarker ++ (B ++ (endMarker ++ C)))) i := by
    rw [← hc]
    exact hS
  have hE2 : ∀ i < A.length + startMarker.length + B.length,
      ¬ occAt endMarker (A ++ (startMarker ++ (B ++ (endMarker ++ C)))) i := by
    rw [← hc]
    exact hE
  rw [update_readme_success root p w hex hr hw, hc,
    updateContent_replace (generate_readme_tree root p) A B C hS2 hE2]

/-- Witness for C1 on a concrete README. -/
theorem C1_update_readme_replaces_witness :
    update_readme (.dir (lc "r") []) (lc "/r")
      ⟨true, lc "Intro\n" ++ (startMarker ++ (lc " old " ++ (endMarker ++ lc "\nTail"))),
       true, true, [], true⟩
      = (true, ⟨true, lc "Intro\n" ++ (startMarker ++ ('\n' ::
          (generate_readme_tree (.dir (lc "r") []) (lc "/r")
            ++ '\n' :: (endMarker ++ lc "\nTail")))), true, true, [], true⟩) := by
  exact C1_update_readme_replaces _ _ _ (lc "Intro\n") (lc " old ") (lc "\nTail")
    rfl rfl rfl rfl (by decide) (by decide)

/-- C8: if the README exists but lacks the start marker or the end marker,
`update_readme` succeeds and appends a fresh marked block, leaving the
original content unchanged as a prefix. -/
theorem C8_append_when_markers_missing (root : FSTree) (p : List Char) (w : World)
    (hex : w.readmeExists = true) (hr : w.readOk = true) (hw : w.writeOk = true)
    (hm : NoOcc startMarker w.readme ∨ NoOcc endMarker w.readme) :
    update_readme root p w
      = (true, { w with readme := w.readme ++ '\n' :: '\n' ::
          (startMarker ++ '\n' :: (generate_readme_tree root p
            ++ '\n' :: (endMarker ++ ['\n']))) }) := by
  have hf : firstIdx startMarker w.readme = none ∨ firstIdx endMarker w.readme = none := by
    rcases hm with h | h
    · exact Or.inl (firstIdx_none h)
    · exact Or.inr (firstIdx_none h)
  rw [update_readme_success root p w hex hr hw, updateContent_eq_append hf]

/-- Witness for C8 on a marker-free README. -/
theorem C8_append_when_markers_missing_witness :
    update_readme (.dir (lc "r") []) (lc "/r") ⟨true, lc "# Hello", true, true, [], true⟩
      = (true, ⟨true, lc "# Hello" ++ '\n' :: '\n' ::
          (startMarker ++ '\n' :: (generate_readme_tree (.dir (lc "r") []) (lc "/r")
            ++ '\n' :: (endMarker ++ ['\n']))), true, true, [], true⟩) := by
  exact C8_append_when_markers_missing _ _ _ rfl rfl rfl
    (Or.inl (noOcc_of_bounded (by decide) (by decide)))

/-- C9: a missing README makes `update_readme` report failure with the world
unchanged; a caught read exception does the same; a caught write exception
makes it report failure; a caught sidebar write exception makes
`create_sidebar` report failure with the world unchanged.  Both operations
are total functions of the world: no failure escapes as an exception. -/
theorem C9_failure_handling (root : FSTree) (p : List Char) (w : World) :
    (w.readmeExists = false → update_readme root p w = (false, w))
    ∧ (w.readOk = false → update_readme root p w = (false, w))
    ∧ (w.writeOk = false → (update_readme root p w).1 = false)
    ∧ (w.sidebarWriteOk = false → create_sidebar root p w = (false, w)) := by
  refine ⟨?_, ?_, ?_, ?_⟩
  · intro h
    unfold update_readme
    rw [h]
    rfl
  · intro h
    unfold update_readme
    rw [h]
    cases hex : w.readmeExists <;> rfl
  · intro h
    unfold update_readme
    rw [h]
    cases hex : w.readmeExists
    · rfl
    · cases hr : w.readOk <;> rfl
  · intro h
    unfold create_sidebar
    rw [h]
    rfl

/-- Witness for C9: a missing README and a failing sidebar write. -/
theorem C9_failure_handling_witness :
    update_readme (.dir (lc "r") []) (lc "/r") ⟨false, [], true, true, [], true⟩
      = (false, ⟨false, [], true, true, [], true⟩)
    ∧ create_sidebar (.dir (lc "r") []) (lc "/r") ⟨true, [], true, true, [], false⟩
      = (false, ⟨true, [], true, true, [], false⟩) :=
  ⟨(C9_failure_handling _ _ _).1 rfl, (C9_failure_handling _ _ _).2.2.2 rfl⟩

/-! ## C6: determinism and idempotence -/

theorem nl_not_mem_startMarker : '\n' ∉ startMarker := by decide

theorem nl_not_mem_endMarker : '\n' ∉ endMarker := by decide

theorem noOcc_end_in_start : NoOcc endMarker startMarker :=
  noOcc_of_bounded (by decide) (by decide)

theorem occAt_transfer_prefix {pat X R R2 : List Char} {i : Nat}
    (h : occAt pat (X ++ R2) i) (hb : i + pat.length ≤ X.length) :
    occAt pat (X ++ R) i :=
  occAt_mono_append (occAt_mono_left h hb)

/-- The end marker contains no newline, so in a string of the shape
`X ++ "\n" ++ T ++ "\n" ++ Z` it cannot occur before the `Z` part, provided it
occurs neither inside `X` nor inside `T`. -/
theorem noOccE_mid {X T Z : List Char}
    (hX : ∀ i, i + endMarker.length ≤ X.length → ¬ occAt endMarker X i)
    (hT : NoOcc endMarker T) :
    ∀ i < X.length + 1 + T.length + 1,
      ¬ occAt endMarker (X ++ '\n' :: (T ++ '\n' :: Z)) i := by
  intro i hi hocc
  by_cases h1 : i + endMarker.length ≤ X.length
  · exact hX i h1 (occAt_mono_left hocc h1)
  · push_neg at h1
    by_cases h2 : i ≤ X.length
    · have hh := occAt_head hocc h2 (by omega)
      rw [List.drop_left] at hh
      exact nl_not_mem_endMarker (List.drop_subset _ _ (head?_mem hh.symm))
    · push_neg at h2
      have h4 : (X ++ ['\n']).length ≤ i := by
        simp only [List.length_append, List.length_cons, List.length_nil]
        omega
      have h5 := occAt_right
        (show occAt endMarker ((X ++ ['\n']) ++ (T ++ '\n' :: Z)) i by
          simpa [List.append_assoc] using hocc) h4
      have h6 : i - (X ++ ['\n']).length = i - (X.length + 1) := by
        simp only [List.length_append, List.length_cons, List.length_nil]
      rw [h6] at h5
      have hj : i - (X.length + 1) ≤ T.length := by omega
      by_cases h7 : (i - (X.length + 1)) + endMarker.length ≤ T.length
      · exact hT _ (occAt_mono_left h5 h7)
      · push_neg at h7
        have hh := occAt_head h5 hj (by omega)
        rw [List.drop_left] at hh
        exact nl_not_mem_endMarker (List.drop_subset _ _ (head?_mem hh.symm))

/-- Idempotence of the marker-replacing branch: running the substitution on
its own output changes nothing, as long as the rendered tree does not itself
contain the end marker. -/
theorem updateContent_idem_replace (T A B C : List Char)
    (hS : ∀ i < A.length,
      ¬ occAt startMarker (A ++ (startMarker ++ (B ++ (endMarker ++ C)))) i)
    (hE : ∀ i < A.length + startMarker.length + B.length,
      ¬ occAt endMarker (A ++ (startMarker ++ (B ++ (endMarker ++ C)))) i)
    (hT : NoOcc endMarker T) :
    updateContent T (A ++ (startMarker ++ ('\n' :: (T ++ '\n' :: (endMarker ++ C)))))
      = A ++ (startMarker ++ ('\n' :: (T ++ '\n' :: (endMarker ++ C)))) := by
  have hfS : firstIdx startMarker
      (A ++ (startMarker ++ ('\n' :: (T ++ '\n' :: (endMarker ++ C)))))
      = some A.length := by
    apply firstIdx_some
      (occAt_append_at A startMarker ('\n' :: (T ++ '\n' :: (endMarker ++ C))))
    intro i hi hocc
    have hb : i + startMarker.length ≤ (A ++ startMarker).length := by
      simp only [List.length_append]
      omega
    have h2 : occAt startMarker ((A ++ startMarker) ++ (B ++ (endMarker ++ C))) i :=
      occAt_transfer_prefix (show occAt startMarker
        ((A ++ startMarker) ++ ('\n' :: (T ++ '\n' :: (endMarker ++ C)))) i by
          simpa [List.append_assoc] using hocc) hb
    exact hS i hi (by simpa [List.append_assoc] using h2)
  have hXfact : ∀ i, i + endMarker.length ≤ (A ++ startMarker).length →
      ¬ occAt endMarker (A ++ startMarker) i := by
    intro i hb hocc
    have h2 : occAt endMarker ((A ++ startMarker) ++ (B ++ (endMarker ++ C))) i :=
      occAt_mono_append hocc
    have hi : i < A.length + startMarker.length + B.length := by
      have hEpos : (0 : Nat) < endMarker.length := by decide
      simp only [List.length_append] at hb
      omega
    exact hE i hi (by simpa [List.append_assoc] using h2)
  have hmid := noOccE_mid (Z := endMarker ++ C) hXfact hT
  have hfE : firstIdx endMarker
      (A ++ (startMarker ++ ('\n' :: (T ++ '\n' :: (endMarker ++ C)))))
      = some (A.length + startMarker.length + 1 + T.length + 1) := by
    apply firstIdx_some
    · have h := occAt_append_at (((A ++ startMarker) ++ ('\n' :: T)) ++ ['\n']) endMarker C
      have hlen : ((((A ++ startMarker) ++ ('\n' :: T)) ++ ['\n'])).length
          = A.length + startMarker.length + 1 + T.length + 1 := by
        simp only [List.length_append, List.length_cons, List.length_nil]
        omega
      rw [hlen] at h
      have hform : ((((A ++ startMarker) ++ ('\n' :: T)) ++ ['\n']) ++ (endMarker ++ C))
          = A ++ (startMarker ++ ('\n' :: (T ++ '\n' :: (endMarker ++ C)))) := by
        simp [List.append_assoc]
      rw [hform] at h
      exact h
    · intro i hi hocc
      apply hmid i ?_ ?_
      · simp only [List.length_append]
        omega
      · simpa [List.append_assoc] using hocc
  rw [updateContent_eq_replace hfS hfE]
  have htake : (A ++ (startMarker ++ ('\n' :: (T ++ '\n' :: (endMarker ++ C))))).take
      (A.length + startMarker.length) = A ++ startMarker := by
    rw [show A ++ (startMarker ++ ('\n' :: (T ++ '\n' :: (endMarker ++ C))))
        = (A ++ startMarker) ++ ('\n' :: (T ++ '\n' :: (endMarker ++ C)))
      by simp [List.append_assoc]]
    exact List.take_left' (by simp only [List.length_append])
  have hdrop : (A ++ (startMarker ++ ('\n' :: (T ++ '\n' :: (endMarker ++ C))))).drop
      (A.length + startMarker.length + 1 + T.length + 1) = endMarker ++ C := by
    rw [show A ++ (startMarker ++ ('\n' :: (T ++ '\n' :: (endMarker ++ C))))
        = ((((A ++ startMarker) ++ ('\n' :: T)) ++ ['\n']) ++ (endMarker ++ C))
      by simp [List.append_assoc]]
    exact List.drop_left' (by
      simp only [List.length_append, List.length_cons, List.length_nil]
      omega)
  rw [htake, hdrop]
  simp [List.append_assoc]

/-- Idempotence of the appending branch: running the substitution on the
output of a marker-free first run changes nothing. -/
theorem updateContent_idem_append (T content : List Char)
    (hs : NoOcc startMarker content) (he : NoOcc endMarker content)
    (hT : NoOcc endMarker T) :
    updateContent T (content ++ '\n' :: '\n' ::
        (startMarker ++ '\n' :: (T ++ '\n' :: (endMarker ++ ['\n']))))
      = content ++ '\n' :: '\n' ::
          (startMarker ++ '\n' :: (T ++ '\n' :: (endMarker ++ ['\n']))) := by
  have hSpos : (0 : Nat) < startMarker.length := by decide
  have hEpos : (0 : Nat) < endMarker.length := by decide
  have hfS : firstIdx startMarker (content ++ '\n' :: '\n' ::
      (startMarker ++ '\n' :: (T ++ '\n' :: (endMarker ++ ['\n']))))
      = some (content.length + 2) := by
    apply firstIdx_some
    · have h := occAt_append_at (content ++ ['\n', '\n']) startMarker
        ('\n' :: (T ++ '\n' :: (endMarker ++ ['\n'])))
      have hlen : (content ++ ['\n', '\n']).length = content.length + 2 := by
        simp only [List.length_append, List.length_cons, List.length_nil]
      rw [hlen] at h
      have hform : (content ++ ['\n', '\n'])
          ++ (startMarker ++ ('\n' :: (T ++ '\n' :: (endMarker ++ ['\n']))))
          = content ++ '\n' :: '\n' ::
              (startMarker ++ '\n' :: (T ++ '\n' :: (endMarker ++ ['\n']))) := by
        simp
      rw [hform] at h
      exact h
    · intro i hi hocc
      by_cases h1 : i + startMarker.length ≤ content.length
      · exact hs i (occAt_mono_left hocc h1)
      · push_neg at h1
        by_cases h2 : i ≤ content.length
        · have hh := occAt_head hocc h2 (by omega)
          rw [List.drop_left] at hh
          exact nl_not_mem_startMarker (List.drop_subset _ _ (head?_mem hh.symm))
        · push_neg at h2
          have h3 : i = content.length + 1 := by omega
          subst h3
          have hh := occAt_head hocc (le_refl _) (by omega)
          have hd : (content ++ '\n' :: '\n' ::
              (startMarker ++ '\n' :: (T ++ '\n' :: (endMarker ++ ['\n'])))).drop
                (content.length + 1)
              = '\n' :: (startMarker ++ '\n' :: (T ++ '\n' :: (endMarker ++ ['\n']))) := by
            rw [show content ++ '\n' :: '\n' ::
                (startMarker ++ '\n' :: (T ++ '\n' :: (endMarker ++ ['\n'])))
                = (content ++ ['\n']) ++ ('\n' ::
                    (startMarker ++ '\n' :: (T ++ '\n' :: (endMarker ++ ['\n'])))) by simp]
            exact List.drop_left' (by
              simp only [List.length_append, List.length_cons, List.length_nil])
          rw [hd, Nat.sub_self, List.drop_zero] at hh
          exact nl_not_mem_startMarker (head?_mem hh.symm)
  have hXfact2 : ∀ i, i + endMarker.length ≤ (content ++ ('\n' :: '\n' :: startMarker)).length →
      ¬ occAt endMarker (content ++ ('\n' :: '\n' :: startMarker)) i := by
    intro i hb hocc
    have hlenX : (content ++ ('\n' :: '\n' :: startMarker)).length
        = content.length + 2 + startMarker.length := by
      simp only [List.length_append, List.length_cons]
      omega
    rw [hlenX] at hb
    by_cases h1 : i + endMarker.length ≤ content.length
    · exact he i (occAt_mono_left hocc h1)
    · push_neg at h1
      by_cases h2 : i ≤ content.length
      · have hh := occAt_head hocc h2 (by omega)
        rw [List.drop_left] at hh
        exact nl_not_mem_endMarker (List.drop_subset _ _ (head?_mem hh.symm))
      · push_neg at h2
        by_cases h3 : i = content.length + 1
        · subst h3
          have hh := occAt_head hocc (le_refl _) (by omega)
          have hd : (content ++ ('\n' :: '\n' :: startMarker)).drop (content.length + 1)
              = '\n' :: startMarker := by
            rw [show content ++ ('\n' :: '\n' :: startMarker)
                = (content ++ ['\n']) ++ ('\n' :: startMarker) by simp]
            exact List.drop_left' (by
              simp only [List.length_append, List.length_cons, List.length_nil])
          rw [hd, Nat.sub_self, List.drop_zero] at hh
          exact nl_not_mem_endMarker (head?_mem hh.symm)
        · have h5 := occAt_right
            (show occAt endMarker ((content ++ ['\n', '\n']) ++ startMarker) i by
              simpa using hocc)
            (by simp only [List.length_append, List.length_cons, List.length_nil]; omega)
          exact noOcc_end_in_start _ h5
  have hmid2 := noOccE_mid (Z := endMarker ++ ['\n']) hXfact2 hT
  have hfE : firstIdx endMarker (content ++ '\n' :: '\n' ::
      (startMarker ++ '\n' :: (T ++ '\n' :: (endMarker ++ ['\n']))))
      = some (content.length + 2 + startMarker.length + 1 + T.length + 1) := by
    apply firstIdx_some
    · have h := occAt_append_at
        ((((content ++ ['\n', '\n']) ++ startMarker) ++ ('\n' :: T)) ++ ['\n'])
        endMarker ['\n']
      have hlen : (((((content ++ ['\n', '\n']) ++ startMarker) ++ ('\n' :: T)) ++ ['\n'])).length
          = content.length + 2 + startMarker.length + 1 + T.length + 1 := by
        simp only [List.length_append, List.length_cons, List.length_nil]
        omega
      rw [hlen] at h
      have hform : ((((content ++ ['\n', '\n']) ++ startMarker) ++ ('\n' :: T)) ++ ['\n'])
          ++ (endMarker ++ ['\n'])
          = content ++ '\n' :: '\n' ::
              (startMarker ++ '\n' :: (T ++ '\n' :: (endMarker ++ ['\n']))) := by
        simp
      rw [hform] at h
      exact h
    · intro i hi hocc
      apply hmid2 i ?_ ?_
      · simp only [List.length_append, List.length_cons]
        omega
      · simpa [List.append_assoc] using hocc
  rw [updateContent_eq_replace hfS hfE]
  have htake : (content ++ '\n' :: '\n' ::
      (startMarker ++ '\n' :: (T ++ '\n' :: (endMarker ++ ['\n'])))).take
      (content.length + 2 + startMarker.length)
      = (content ++ ['\n', '\n']) ++ startMarker := by
    rw [show content ++ '\n' :: '\n' ::
        (startMarker ++ '\n' :: (T ++ '\n' :: (endMarker ++ ['\n'])))
        = ((content ++ ['\n', '\n']) ++ startMarker)
            ++ ('\n' :: (T ++ '\n' :: (endMarker ++ ['\n']))) by simp]
    exact List.take_left' (by
      simp only [List.length_append, List.length_cons, List.length_nil]
      try omega)
  have hdrop : (content ++ '\n' :: '\n' ::
      (startMarker ++ '\n' :: (T ++ '\n' :: (endMarker ++ ['\n'])))).drop
      (content.length + 2 + startMarker.length + 1 + T.length + 1)
      = endMarker ++ ['\n'] := by
    rw [show content ++ '\n' :: '\n' ::
        (startMarker ++ '\n' :: (T ++ '\n' :: (endMarker ++ ['\n'])))
        = ((((content ++ ['\n', '\n']) ++ startMarker) ++ ('\n' :: T)) ++ ['\n'])
            ++ (endMarker ++ ['\n']) by simp]
    exact List.drop_left' (by
      simp only [List.length_append, List.length_cons, List.length_nil]
      omega)
  rw [htake, hdrop]
  simp [List.append_assoc]

/-- C6 (amended): the generators are pure functions of the tree, so two runs
over an unchanged tree produce byte-identical outputs, and re-running the two
write operations on the state left by a successful first run changes nothing
— provided the original README either contains both markers (first start
occurrence before first end occurrence) or contains neither, and the rendered
tree does not itself contain the end marker. -/
theorem C6_second_run_fixpoint (root : FSTree) (p : List Char) (w : World)
    (hex : w.readmeExists = true) (hr : w.readOk = true) (hw : w.writeOk = true)
    (hT : NoOcc endMarker (generate_readme_tree root p))
    (hm : (∃ A B C, w.readme = A ++ (startMarker ++ (B ++ (endMarker ++ C)))
            ∧ (∀ i < A.length, ¬ occAt startMarker w.readme i)
            ∧ (∀ i < A.length + startMarker.length + B.length,
                ¬ occAt endMarker w.readme i))
          ∨ (NoOcc startMarker w.readme ∧ NoOcc endMarker w.readme)) :
    update_readme root p ((update_readme root p w).2) = (true, (update_readme root p w).2)
    ∧ (create_sidebar root p ((create_sidebar root p w).2)).2
        = (create_sidebar root p w).2 := by
  constructor
  · have hidem : updateContent (generate_readme_tree root p)
        (updateContent (generate_readme_tree root p) w.readme)
        = updateContent (generate_readme_tree root p) w.readme := by
      rcases hm with ⟨A, B, C, hcread, hS, hE⟩ | ⟨hs, he⟩
      · have hS2 : ∀ i < A.length,
            ¬ occAt startMarker (A ++ (startMarker ++ (B ++ (endMarker ++ C)))) i := by
          rw [← hcread]
          exact hS
        have hE2 : ∀ i < A.length + startMarker.length + B.length,
            ¬ occAt endMarker (A ++ (startMarker ++ (B ++ (endMarker ++ C)))) i := by
          rw [← hcread]
          exact hE
        rw [hcread, updateContent_replace (generate_readme_tree root p) A B C hS2 hE2]
        exact updateContent_idem_replace (generate_readme_tree root p) A B C hS2 hE2 hT
      · rw [updateContent_eq_append (Or.inl (firstIdx_none hs))]
        exact updateContent_idem_append (generate_readme_tree root p) w.readme hs he hT
    rw [update_readme_success root p w hex hr hw]
    show update_readme root p
        { w with readme := updateContent (generate_readme_tree root p) w.readme }
      = (true, { w with readme := updateContent (generate_readme_tree root p) w.readme })
    rw [update_readme_success root p
      { w with readme := updateContent (generate_readme_tree root p) w.readme } hex hr hw]
    rw [show ({ w with readme := updateContent (generate_readme_tree root p) w.readme }
        : World).readme = updateContent (generate_readme_tree root p) w.readme from rfl,
      hidem]
  · cases hsb : w.sidebarWriteOk
    · have hcw : create_sidebar root p w = (false, w) := by
        unfold create_sidebar
        rw [hsb]
        rfl
      rw [hcw]
      show (create_sidebar root p w).2 = w
      rw [hcw]
    · have hcw : create_sidebar root p w
          = (true, { w with sidebar := generate_docsify_sidebar root p }) := by
        unfold create_sidebar
        rw [hsb]
        rfl
      rw [hcw]
      show (create_sidebar root p
          { w with sidebar := generate_docsify_sidebar root p }).2
        = { w with sidebar := generate_docsify_sidebar root p }
      have hcw2 : create_sidebar root p
          { w with sidebar := generate_docsify_sidebar root p }
          = (true, { w with sidebar := generate_docsify_sidebar root p }) := by
        unfold create_sidebar
        rw [show ({ w with sidebar := generate_docsify_sidebar root p }
            : World).sidebarWriteOk = true from hsb]
        rfl
      rw [hcw2]

set_option maxRecDepth 100000 in
/-- C6 counterexample: a README containing exactly the start marker and no end
marker.  The first successful run appends a fresh marked block at the end; the
second run then finds the stray start marker and the appended end marker and
splices between them, changing the README again. -/
theorem C6_counterexample :
    ((update_readme (.dir (lc "r") []) (lc "/r")
        ((update_readme (.dir (lc "r") []) (lc "/r")
          ⟨true, startMarker, true, true, [], true⟩).2)).2).readme
      ≠ (((update_readme (.dir (lc "r") []) (lc "/r")
          ⟨true, startMarker, true, true, [], true⟩).2)).readme := by
  decide

set_option maxRecDepth 100000 in
/-- Witness for C6's amended statement: a both-markers README and a sidebar
state, each rewritten twice. -/
theorem C6_second_run_fixpoint_witness :
    update_readme (.dir (lc "r") []) (lc "/r")
        ((update_readme (.dir (lc "r") []) (lc "/r")
          ⟨true, lc "X" ++ (startMarker ++ (lc "b" ++ (endMarker ++ lc "c"))),
           true, true, [], true⟩).2)
      = (true, (update_readme (.dir (lc "r") []) (lc "/r")
          ⟨true, lc "X" ++ (startMarker ++ (lc "b" ++ (endMarker ++ lc "c"))),
           true, true, [], true⟩).2)
    ∧ (create_sidebar (.dir (lc "r") []) (lc "/r")
        ((create_sidebar (.dir (lc "r") []) (lc "/r")
          ⟨true, [], true, true, [], true⟩).2)).2
      = (create_sidebar (.dir (lc "r") []) (lc "/r")
          ⟨true, [], true, true, [], true⟩).2 := by
  constructor
  · exact (C6_second_run_fixpoint (.dir (lc "r") []) (lc "/r")
      ⟨true, lc "X" ++ (startMarker ++ (lc "b" ++ (endMarker ++ lc "c"))),
       true, true, [], true⟩ rfl rfl rfl
      (noOcc_of_bounded (by decide) (by decide))
      (Or.inl ⟨lc "X", lc "b", lc "c", rfl, by decide, by decide⟩)).1
  · exact (C6_second_run_fixpoint (.dir (lc "r") []) (lc "/r")
      ⟨true, [], true, true, [], true⟩ rfl rfl rfl
      (noOcc_of_bounded (by decide) (by decide))
      (Or.inr ⟨noOcc_of_bounded (by decide) (by decide),
        noOcc_of_bounded (by decide) (by decide)⟩)).2

end TreeGen
